import Mathlib

/-
Verification of the sparse tuple weight algebra (sparse-tuple-weight.h) and the
generic type registry (generic-register.h) of the openfst repository.

Shallow embedding conventions:
* `SparseTupleWeight W` mirrors the C++ class `SparseTupleWeight<W, K>` with
  `K = int` (the template default), embedded as `Int`; `kNoKey = -1` is the
  reserved sentinel marking the inline slot empty.
* The scalar weight type `W` is opaque; the operations the generic code needs
  from it (equality, zero, quantization, hashing) are passed explicitly.
* The component sequence observed by `SparseTupleWeightIterator` (first the
  inline pair unless its key is `kNoKey`, then the tail list) is `toList`.
* `CompositeWeightWriter`/`CompositeWeightReader` framing is modelled as the
  pair (default value, component list) that `operator<<` emits between the
  begin and end markers, and `operator>>` consumes.
* The registry's `std::map` is embedded as an association list with
  first-match lookup; `std::map::insert` inserts only when the key is absent.
* `dlopen`-based fallback loading is external; it is modelled by a
  `LoadOutcome` parameter: either the load fails, or it succeeds and yields a
  post-load registry table (the shared object self-registers on load).
-/

set_option linter.unusedSectionVars false

namespace FstSpec

/-- Reserved key value (`kNoKey` in the source): marks the inline slot empty. -/
def kNoKey : Int := -1

/-- The sparse tuple weight representation: the assumed `default_` value of
unset keys, the inline `first_` pair, and the `rest_` tail list. -/
structure SparseTupleWeight (W : Type) where
  default_ : W
  first_ : Int × W
  rest_ : List (Int × W)
deriving DecidableEq

variable {W : Type} [DecidableEq W]

/-- `Init(default_value)`: empty the weight, setting the inline slot key to
`kNoKey` and the default to the given value.  (The inline slot's value
component is unconstrained in the source; we pick the default value.) -/
def Init (d : W) : SparseTupleWeight W :=
  { default_ := d, first_ := (kNoKey, d), rest_ := [] }

/-- The component sequence yielded by `SparseTupleWeightIterator`: nothing when
the inline slot key is `kNoKey`, else the inline pair followed by the tail. -/
def toList (w : SparseTupleWeight W) : List (Int × W) :=
  if w.first_.1 = kNoKey then [] else w.first_ :: w.rest_

/-- `Push(p, default_value_check)`: drop the pair when the check is on and its
value equals the current default; otherwise fill the inline slot if empty,
else append to the tail list. -/
def Push (w : SparseTupleWeight W) (p : Int × W) (default_value_check : Bool) :
    SparseTupleWeight W :=
  if default_value_check = true ∧ p.2 = w.default_ then w
  else if w.first_.1 = kNoKey then { w with first_ := p }
  else { w with rest_ := w.rest_ ++ [p] }

/-- `Size()`: 0 when the inline slot is empty, else 1 + the tail length. -/
def Size (w : SparseTupleWeight W) : Nat :=
  if w.first_.1 = kNoKey then 0 else w.rest_.length + 1

/-- `SetDefaultValue(val)`. -/
def SetDefaultValue (w : SparseTupleWeight W) (v : W) : SparseTupleWeight W :=
  { w with default_ := v }

/-- `Hash()`: rolling fold `h = 5*h + H(key); h = 13*h + value.Hash()` over the
stored components in storage order, in `uint64` arithmetic (mod 2^64).
`Hk` models `std::hash<K>`, `Hw` models `W::Hash`. -/
def Hash (Hk : Int → Nat) (Hw : W → Nat) (w : SparseTupleWeight W) : Nat :=
  (toList w).foldl
    (fun h p => (13 * ((5 * h + Hk p.1) % 2 ^ 64) + Hw p.2) % 2 ^ 64) 0

/-- The copy constructor: `Init(w.DefaultValue())`, then push every component
of the source (with the default-value check on). -/
def copyOf (w : SparseTupleWeight W) : SparseTupleWeight W :=
  (toList w).foldl (fun a q => Push a q true) (Init w.default_)

/-- `Quantize(delta)`: start from a freshly default-constructed weight (whose
default is `W::Zero()`, here the explicit argument `zero`), and push every
component with its value quantized.  `q` models `W::Quantize(delta)` for the
given delta. -/
def Quantize (zero : W) (q : W → W) (w : SparseTupleWeight W) :
    SparseTupleWeight W :=
  (toList w).foldl (fun a p => Push a (p.1, q p.2) true) (Init zero)

/-- `operator=`: when the two operands alias (`this == &w`, modelled by the
`aliased` flag) return the target unchanged; otherwise re-initialize from the
source's default and push every source component. -/
def operatorAssign (tgt src : SparseTupleWeight W) (aliased : Bool) :
    SparseTupleWeight W :=
  if aliased then tgt
  else (toList src).foldl (fun a q => Push a q true) (Init src.default_)

/-- `operator<<`: the on-wire content between the begin/end markers — the
default value followed by the stored components in storage order. -/
def writeSTW (w : SparseTupleWeight W) : W × List (Int × W) :=
  (w.default_, toList w)

/-- `operator>>`: read the default, `Init` the weight with it, then push each
(key, value) pair, with the default-value check left at its default (on). -/
def readSTW (s : W × List (Int × W)) : SparseTupleWeight W :=
  s.2.foldl (fun a q => Push a q true) (Init s.1)

/-- The synchronized walk of `operator==` after the default comparison:
when one cursor is done, the other side's key is used for both, so the live
value is compared against the done side's default. -/
def eqWalk (d1 d2 : W) : List (Int × W) → List (Int × W) → Bool
  | [], [] => true
  | [], p2 :: t2 => if d1 ≠ p2.2 then false else eqWalk d1 d2 [] t2
  | p1 :: t1, [] => if p1.2 ≠ d2 then false else eqWalk d1 d2 t1 []
  | p1 :: t1, p2 :: t2 =>
    if p1.1 = p2.1 then
      if p1.2 ≠ p2.2 then false else eqWalk d1 d2 t1 t2
    else if p1.1 < p2.1 then
      if p1.2 ≠ d2 then false else eqWalk d1 d2 t1 (p2 :: t2)
    else
      if d1 ≠ p2.2 then false else eqWalk d1 d2 (p1 :: t1) t2

/-- `operator==`: defaults first, then the synchronized walk. -/
def stwEq (w1 w2 : SparseTupleWeight W) : Bool :=
  if w1.default_ ≠ w2.default_ then false
  else eqWalk w1.default_ w2.default_ (toList w1) (toList w2)

/-- The push sequence of `SparseTupleWeightMap`'s synchronized walk (the pairs
it emits, in order): on aligned keys combine both values, on a key present on
one side only combine with the other side's default. -/
def mergeEmit (M : Int → W → W → W) (d1 d2 : W) :
    List (Int × W) → List (Int × W) → List (Int × W)
  | [], [] => []
  | [], p2 :: t2 => (p2.1, M p2.1 d1 p2.2) :: mergeEmit M d1 d2 [] t2
  | p1 :: t1, [] => (p1.1, M p1.1 p1.2 d2) :: mergeEmit M d1 d2 t1 []
  | p1 :: t1, p2 :: t2 =>
    if p1.1 = p2.1 then (p1.1, M p1.1 p1.2 p2.2) :: mergeEmit M d1 d2 t1 t2
    else if p1.1 < p2.1 then
      (p1.1, M p1.1 p1.2 d2) :: mergeEmit M d1 d2 t1 (p2 :: t2)
    else (p2.1, M p2.1 d1 p2.2) :: mergeEmit M d1 d2 (p1 :: t1) t2

/-- The loop of `SparseTupleWeightMap`, pushing into the accumulator as it
walks (each push with the default-value check on). -/
def mergeWalk (M : Int → W → W → W) (d1 d2 : W) :
    List (Int × W) → List (Int × W) → SparseTupleWeight W →
      SparseTupleWeight W
  | [], [], acc => acc
  | [], p2 :: t2, acc => mergeWalk M d1 d2 [] t2 (Push acc (p2.1, M p2.1 d1 p2.2) true)
  | p1 :: t1, [], acc => mergeWalk M d1 d2 t1 [] (Push acc (p1.1, M p1.1 p1.2 d2) true)
  | p1 :: t1, p2 :: t2, acc =>
    if p1.1 = p2.1 then
      mergeWalk M d1 d2 t1 t2 (Push acc (p1.1, M p1.1 p1.2 p2.2) true)
    else if p1.1 < p2.1 then
      mergeWalk M d1 d2 t1 (p2 :: t2) (Push acc (p1.1, M p1.1 p1.2 d2) true)
    else
      mergeWalk M d1 d2 (p1 :: t1) t2 (Push acc (p2.1, M p2.1 d1 p2.2) true)

/-- `SparseTupleWeightMap(ret, w1, w2, op)`: set `ret`'s default to
`op.Map(0, w1.default, w2.default)` (note: the literal key 0), then run the
synchronized walk pushing combined components into `ret`. -/
def SparseTupleWeightMap (M : Int → W → W → W)
    (ret w1 w2 : SparseTupleWeight W) : SparseTupleWeight W :=
  mergeWalk M w1.default_ w2.default_ (toList w1) (toList w2)
    (SetDefaultValue ret (M 0 w1.default_ w2.default_))

/-- Structural invariant maintained by every construction path: when the
inline slot is empty the tail list is empty too. -/
def GoodState (w : SparseTupleWeight W) : Prop :=
  w.first_.1 = kNoKey → w.rest_ = []

/-- First-match association lookup (the observable content of both the weight
component list and the registry's `std::map`). -/
def lookupW {K V : Type} [DecidableEq K] : List (K × V) → K → Option V
  | [], _ => none
  | p :: t, k => if p.1 = k then some p.2 else lookupW t k

/-- The value a component list associates with a key, falling back to the
default value for unstored keys. -/
def valueAt (l : List (Int × W)) (d : W) (k : Int) : W :=
  (lookupW l k).getD d

/-- The strictly-increasing-key invariant on a component list. -/
abbrev IncKeys (l : List (Int × W)) : Prop :=
  l.Pairwise (fun p q => p.1 < q.1)

theorem Push_default_ (w : SparseTupleWeight W) (p : Int × W) (c : Bool) :
    (Push w p c).default_ = w.default_ := by
  unfold Push
  split
  · rfl
  · split <;> rfl

theorem Push_good (w : SparseTupleWeight W) (p : Int × W) (c : Bool)
    (hw : GoodState w) : GoodState (Push w p c) := by
  unfold Push GoodState at *
  split
  · exact hw
  · split
    · intro h
      next hfirst => exact hw hfirst
    · intro h
      next hfirst => exact absurd h hfirst

theorem toList_Push (w : SparseTupleWeight W) (p : Int × W) (c : Bool)
    (hw : GoodState w) (hp : p.1 ≠ kNoKey) :
    toList (Push w p c) =
      toList w ++ (if c = true ∧ p.2 = w.default_ then [] else [p]) := by
  unfold Push toList GoodState at *
  split
  · simp
  · split
    next hfirst =>
      rw [hw hfirst]
      simp [hfirst, hp]
    next hfirst =>
      simp [hfirst]

theorem foldl_Push_default_ (l : List (Int × W)) (w : SparseTupleWeight W)
    (c : Bool) :
    (l.foldl (fun a q => Push a q c) w).default_ = w.default_ := by
  induction l generalizing w with
  | nil => rfl
  | cons p t ih =>
    simp only [List.foldl_cons]
    rw [ih (Push w p c), Push_default_]

theorem foldl_Push_good (l : List (Int × W)) (w : SparseTupleWeight W)
    (c : Bool) (hw : GoodState w) :
    GoodState (l.foldl (fun a q => Push a q c) w) := by
  induction l generalizing w with
  | nil => exact hw
  | cons p t ih =>
    simp only [List.foldl_cons]
    exact ih (Push w p c) (Push_good w p c hw)

theorem foldl_Push_toList (l : List (Int × W)) (w : SparseTupleWeight W)
    (hw : GoodState w) (hk : ∀ p ∈ l, p.1 ≠ kNoKey) :
    toList (l.foldl (fun a q => Push a q true) w) =
      toList w ++ l.filter (fun q => q.2 ≠ w.default_) := by
  induction l generalizing w with
  | nil => simp
  | cons p t ih =>
    have hp : p.1 ≠ kNoKey := hk p (by simp)
    simp only [List.foldl_cons]
    rw [ih (Push w p true) (Push_good w p true hw)
      (fun q hq => hk q (by simp [hq]))]
    rw [toList_Push w p true hw hp, Push_default_]
    by_cases hv : p.2 = w.default_
    · simp [hv, List.filter_cons]
    · simp [hv, List.filter_cons]

theorem Size_eq_length_toList (w : SparseTupleWeight W) :
    Size w = (toList w).length := by
  unfold Size toList
  split <;> simp

theorem GoodState_Init (d : W) : GoodState (Init d) := fun _ => rfl

theorem toList_Init (d : W) : toList (Init d) = [] := by
  simp [toList, Init]

theorem lookupW_eq_none {K V : Type} [DecidableEq K] (l : List (K × V)) (k : K)
    (h : ∀ p ∈ l, p.1 ≠ k) : lookupW l k = none := by
  induction l with
  | nil => rfl
  | cons p t ih =>
    have hp : p.1 ≠ k := h p (by simp)
    simp only [lookupW, if_neg hp]
    exact ih (fun q hq => h q (by simp [hq]))

theorem valueAt_default_of_lt (l : List (Int × W)) (d : W) (k : Int)
    (h : ∀ p ∈ l, k < p.1) : valueAt l d k = d := by
  unfold valueAt
  rw [lookupW_eq_none l k (fun p hp => by have := h p hp; omega)]
  rfl

theorem valueAt_cons (p : Int × W) (t : List (Int × W)) (d : W) (k : Int) :
    valueAt (p :: t) d k = if p.1 = k then p.2 else valueAt t d k := by
  unfold valueAt
  simp only [lookupW]
  split <;> rfl

theorem valueAt_filter (l : List (Int × W)) (d : W) (k : Int)
    (hl : IncKeys l) :
    valueAt (l.filter (fun q => q.2 ≠ d)) d k = valueAt l d k := by
  induction l with
  | nil => rfl
  | cons p t ih =>
    rw [IncKeys, List.pairwise_cons] at hl
    obtain ⟨hhead, htail⟩ := hl
    by_cases hv : p.2 = d
    · rw [List.filter_cons_of_neg (by simp [hv]), valueAt_cons]
      by_cases hk : p.1 = k
      · rw [if_pos hk, ← hk, hv]
        exact valueAt_default_of_lt _ d p.1 (fun q hq =>
          hhead q (List.Sublist.mem hq (List.filter_sublist t)))
      · rw [if_neg hk, ih htail]
    · rw [List.filter_cons_of_pos (by simp [hv]), valueAt_cons, valueAt_cons]
      by_cases hk : p.1 = k
      · simp [hk]
      · rw [if_neg hk, if_neg hk, ih htail]

theorem valueAt_nil (d : W) (k : Int) :
    valueAt ([] : List (Int × W)) d k = d := rfl

/-- The synchronized walk of `operator==` (with equal defaults on both sides)
decides extensional equality of the key-to-value maps the two sorted
component lists denote. -/
theorem eqWalk_iff_valueAt (d : W) :
    ∀ l1 l2 : List (Int × W), IncKeys l1 → IncKeys l2 →
      (eqWalk d d l1 l2 = true ↔ ∀ k, valueAt l1 d k = valueAt l2 d k) := by
  intro l1 l2
  induction l1, l2 using eqWalk.induct d d with
  | case1 =>
    intro _ _
    simp [eqWalk, valueAt_nil]
  | case2 p2 t2 hne =>
    intro _ _
    simp only [eqWalk, if_pos hne]
    constructor
    · intro h; cases h
    · intro h
      have := h p2.1
      rw [valueAt_nil, valueAt_cons, if_pos rfl] at this
      exact absurd this hne
  | case3 p2 t2 hne ih =>
    intro h1 h2
    rw [IncKeys, List.pairwise_cons] at h2
    obtain ⟨hhead, htail⟩ := h2
    have hv : d = p2.2 := not_not.mp hne
    simp only [eqWalk, if_neg hne]
    rw [ih h1 htail]
    constructor
    · intro h k
      rw [valueAt_cons]
      by_cases hk : p2.1 = k
      · rw [if_pos hk, valueAt_nil]
        exact hv
      · rw [if_neg hk]
        exact h k
    · intro h k
      rw [valueAt_nil]
      by_cases hk : p2.1 = k
      · rw [← hk]
        exact (valueAt_default_of_lt t2 d p2.1 hhead).symm
      · have := h k
        rw [valueAt_nil, valueAt_cons, if_neg hk] at this
        exact this
  | case4 p1 t1 hne =>
    intro _ _
    simp only [eqWalk, if_pos hne]
    constructor
    · intro h; cases h
    · intro h
      have := h p1.1
      rw [valueAt_nil, valueAt_cons, if_pos rfl] at this
      exact absurd this hne
  | case5 p1 t1 hne ih =>
    intro h1 h2
    rw [IncKeys, List.pairwise_cons] at h1
    obtain ⟨hhead, htail⟩ := h1
    have hv : p1.2 = d := not_not.mp hne
    simp only [eqWalk, if_neg hne]
    rw [ih htail h2]
    constructor
    · intro h k
      rw [valueAt_cons]
      by_cases hk : p1.1 = k
      · rw [if_pos hk, valueAt_nil]
        exact hv
      · rw [if_neg hk]
        exact h k
    · intro h k
      rw [valueAt_nil]
      by_cases hk : p1.1 = k
      · rw [← hk]
        exact valueAt_default_of_lt t1 d p1.1 hhead
      · have := h k
        rw [valueAt_nil, valueAt_cons, if_neg hk] at this
        exact this
  | case6 p1 t1 p2 t2 heq hv =>
    intro _ _
    simp only [eqWalk, if_pos heq, if_pos hv]
    constructor
    · intro h; cases h
    · intro h
      have := h p1.1
      rw [valueAt_cons, if_pos rfl, valueAt_cons, if_pos heq.symm] at this
      exact absurd this hv
  | case7 p1 t1 p2 t2 heq hv ih =>
    intro h1 h2
    rw [IncKeys, List.pairwise_cons] at h1 h2
    obtain ⟨hhead1, htail1⟩ := h1
    obtain ⟨hhead2, htail2⟩ := h2
    have hveq : p1.2 = p2.2 := not_not.mp hv
    simp only [eqWalk, if_pos heq, if_neg hv]
    rw [ih htail1 htail2]
    constructor
    · intro h k
      rw [valueAt_cons, valueAt_cons]
      by_cases hk : p1.1 = k
      · rw [if_pos hk, if_pos (heq ▸ hk)]
        exact hveq
      · rw [if_neg hk, if_neg (heq ▸ hk)]
        exact h k
    · intro h k
      by_cases hk : p1.1 = k
      · rw [← hk, valueAt_default_of_lt t1 d p1.1 hhead1,
          valueAt_default_of_lt t2 d p1.1 (heq ▸ hhead2)]
      · have := h k
        rw [valueAt_cons, if_neg hk, valueAt_cons, if_neg (heq ▸ hk)] at this
        exact this
  | case8 p1 t1 p2 t2 hne hlt hv =>
    intro h1 h2
    rw [IncKeys, List.pairwise_cons] at h2
    obtain ⟨hhead2, _⟩ := h2
    simp only [eqWalk, if_neg hne, if_pos hlt, if_pos hv]
    constructor
    · intro h; cases h
    · intro h
      have := h p1.1
      rw [valueAt_cons, if_pos rfl,
        valueAt_default_of_lt (p2 :: t2) d p1.1 (by
          intro q hq
          rcases List.mem_cons.mp hq with hq | hq
          · rw [hq]; exact hlt
          · exact hlt.trans (hhead2 q hq))] at this
      exact absurd this hv
  | case9 p1 t1 p2 t2 hne hlt hv ih =>
    intro h1 h2
    have h2' := h2
    rw [IncKeys, List.pairwise_cons] at h1 h2
    obtain ⟨hhead1, htail1⟩ := h1
    obtain ⟨hhead2, _⟩ := h2
    have hveq : p1.2 = d := not_not.mp hv
    have hall2 : ∀ q ∈ p2 :: t2, p1.1 < q.1 := by
      intro q hq
      rcases List.mem_cons.mp hq with hq | hq
      · rw [hq]; exact hlt
      · exact hlt.trans (hhead2 q hq)
    simp only [eqWalk, if_neg hne, if_pos hlt, if_neg hv]
    rw [ih htail1 h2']
    constructor
    · intro h k
      rw [valueAt_cons]
      by_cases hk : p1.1 = k
      · rw [if_pos hk, ← hk, valueAt_default_of_lt (p2 :: t2) d p1.1 hall2]
        exact hveq
      · rw [if_neg hk]
        exact h k
    · intro h k
      by_cases hk : p1.1 = k
      · rw [← hk, valueAt_default_of_lt t1 d p1.1 hhead1,
          valueAt_default_of_lt (p2 :: t2) d p1.1 hall2]
      · have := h k
        rw [valueAt_cons, if_neg hk] at this
        exact this
  | case10 p1 t1 p2 t2 hne hnlt hv =>
    intro h1 h2
    rw [IncKeys, List.pairwise_cons] at h1
    obtain ⟨hhead1, _⟩ := h1
    have hgt : p2.1 < p1.1 := by omega
    simp only [eqWalk, if_neg hne, if_neg hnlt, if_pos hv]
    constructor
    · intro h; cases h
    · intro h
      have := h p2.1
      rw [valueAt_cons, if_neg (by omega),
        valueAt_default_of_lt t1 d p2.1 (fun q hq => hgt.trans (hhead1 q hq)),
        valueAt_cons, if_pos rfl] at this
      exact absurd this hv
  | case11 p1 t1 p2 t2 hne hnlt hv ih =>
    intro h1 h2
    have h1' := h1
    rw [IncKeys, List.pairwise_cons] at h1 h2
    obtain ⟨hhead1, _⟩ := h1
    obtain ⟨hhead2, htail2⟩ := h2
    have hveq : d = p2.2 := not_not.mp hv
    have hgt : p2.1 < p1.1 := by omega
    have hall1 : ∀ q ∈ p1 :: t1, p2.1 < q.1 := by
      intro q hq
      rcases List.mem_cons.mp hq with hq | hq
      · rw [hq]; exact hgt
      · exact hgt.trans (hhead1 q hq)
    simp only [eqWalk, if_neg hne, if_neg hnlt, if_neg hv]
    rw [ih h1' htail2]
    constructor
    · intro h k
      rw [valueAt_cons p2 t2]
      by_cases hk : p2.1 = k
      · rw [if_pos hk, ← hk, valueAt_default_of_lt (p1 :: t1) d p2.1 hall1]
        exact hveq
      · rw [if_neg hk]
        exact h k
    · intro h k
      by_cases hk : p2.1 = k
      · rw [← hk, valueAt_default_of_lt (p1 :: t1) d p2.1 hall1,
          valueAt_default_of_lt t2 d p2.1 hhead2]
      · have := h k
        rw [valueAt_cons p2 t2, if_neg hk] at this
        exact this

/-- `operator==` (with the sorted-key invariant on both operands) holds iff
the defaults agree and the two weights denote the same key-to-value map. -/
theorem stwEq_iff (w1 w2 : SparseTupleWeight W)
    (h1 : IncKeys (toList w1)) (h2 : IncKeys (toList w2)) :
    stwEq w1 w2 = true ↔
      (w1.default_ = w2.default_ ∧
        ∀ k, valueAt (toList w1) w1.default_ k =
          valueAt (toList w2) w2.default_ k) := by
  unfold stwEq
  by_cases hd : w1.default_ = w2.default_
  · rw [if_neg (not_not.mpr hd), ← hd]
    rw [eqWalk_iff_valueAt w1.default_ (toList w1) (toList w2) h1 h2]
    constructor
    · intro h
      exact ⟨rfl, h⟩
    · intro h
      exact h.2
  · rw [if_pos hd]
    constructor
    · intro h; cases h
    · intro h
      exact absurd h.1 hd

/-- The walk of `SparseTupleWeightMap` is the fold of its emitted pushes. -/
theorem mergeWalk_eq_foldl (M : Int → W → W → W) (d1 d2 : W) :
    ∀ (l1 l2 : List (Int × W)) (acc : SparseTupleWeight W),
      mergeWalk M d1 d2 l1 l2 acc =
        (mergeEmit M d1 d2 l1 l2).foldl (fun a q => Push a q true) acc := by
  intro l1 l2
  induction l1, l2 using mergeEmit.induct M d1 d2 with
  | case1 =>
    intro acc
    simp [mergeWalk, mergeEmit]
  | case2 p2 t2 ih =>
    intro acc
    simp only [mergeWalk, mergeEmit, List.foldl_cons]
    exact ih _
  | case3 p1 t1 ih =>
    intro acc
    simp only [mergeWalk, mergeEmit, List.foldl_cons]
    exact ih _
  | case4 p1 t1 p2 t2 heq ih =>
    intro acc
    simp only [mergeWalk, mergeEmit, if_pos heq, List.foldl_cons]
    exact ih _
  | case5 p1 t1 p2 t2 hne hlt ih =>
    intro acc
    simp only [mergeWalk, mergeEmit, if_neg hne, if_pos hlt, List.foldl_cons]
    exact ih _
  | case6 p1 t1 p2 t2 hne hnlt ih =>
    intro acc
    simp only [mergeWalk, mergeEmit, if_neg hne, if_neg hnlt, List.foldl_cons]
    exact ih _

/-- Every key emitted by the merge walk comes from one of the two inputs. -/
theorem mergeEmit_keys_sub (M : Int → W → W → W) (d1 d2 : W) :
    ∀ l1 l2 : List (Int × W), ∀ p ∈ mergeEmit M d1 d2 l1 l2,
      p.1 ∈ l1.map Prod.fst ∨ p.1 ∈ l2.map Prod.fst := by
  intro l1 l2
  induction l1, l2 using mergeEmit.induct M d1 d2 with
  | case1 =>
    intro p hp
    rw [mergeEmit] at hp
    cases hp
  | case2 p2 t2 ih =>
    intro p hp
    simp only [mergeEmit, List.mem_cons] at hp
    rcases hp with hp | hp
    · right; rw [hp]; simp
    · rcases ih p hp with h | h
      · exact Or.inl h
      · right; simp only [List.map_cons, List.mem_cons]; exact Or.inr h
  | case3 p1 t1 ih =>
    intro p hp
    simp only [mergeEmit, List.mem_cons] at hp
    rcases hp with hp | hp
    · left; rw [hp]; simp
    · rcases ih p hp with h | h
      · left; simp only [List.map_cons, List.mem_cons]; exact Or.inr h
      · exact Or.inr h
  | case4 p1 t1 p2 t2 heq ih =>
    intro p hp
    simp only [mergeEmit, if_pos heq, List.mem_cons] at hp
    rcases hp with hp | hp
    · left; rw [hp]; simp
    · rcases ih p hp with h | h
      · left; simp only [List.map_cons, List.mem_cons]; exact Or.inr h
      · right; simp only [List.map_cons, List.mem_cons]; exact Or.inr h
  | case5 p1 t1 p2 t2 hne hlt ih =>
    intro p hp
    simp only [mergeEmit, if_neg hne, if_pos hlt, List.mem_cons] at hp
    rcases hp with hp | hp
    · left; rw [hp]; simp
    · rcases ih p hp with h | h
      · left; simp only [List.map_cons, List.mem_cons]; exact Or.inr h
      · exact Or.inr h
  | case6 p1 t1 p2 t2 hne hnlt ih =>
    intro p hp
    simp only [mergeEmit, if_neg hne, if_neg hnlt, List.mem_cons] at hp
    rcases hp with hp | hp
    · right; rw [hp]; simp
    · rcases ih p hp with h | h
      · exact Or.inl h
      · right; simp only [List.map_cons, List.mem_cons]; exact Or.inr h

/-- The merge walk of two sorted component lists emits a sorted list. -/
theorem IncKeys_mergeEmit (M : Int → W → W → W) (d1 d2 : W) :
    ∀ l1 l2 : List (Int × W), IncKeys l1 → IncKeys l2 →
      IncKeys (mergeEmit M d1 d2 l1 l2) := by
  have bound : ∀ (l1 l2 : List (Int × W)) (c : Int),
      (∀ q ∈ l1, c < q.1) → (∀ q ∈ l2, c < q.1) →
      ∀ p ∈ mergeEmit M d1 d2 l1 l2, c < p.1 := by
    intro l1 l2 c hc1 hc2 p hp
    rcases mergeEmit_keys_sub M d1 d2 l1 l2 p hp with h | h
    · rcases List.mem_map.mp h with ⟨q, hq, hqp⟩
      rw [← hqp]; exact hc1 q hq
    · rcases List.mem_map.mp h with ⟨q, hq, hqp⟩
      rw [← hqp]; exact hc2 q hq
  intro l1 l2
  induction l1, l2 using mergeEmit.induct M d1 d2 with
  | case1 =>
    intro _ _
    rw [mergeEmit]
    exact List.Pairwise.nil
  | case2 p2 t2 ih =>
    intro h1 h2
    rw [IncKeys, List.pairwise_cons] at h2
    obtain ⟨hhead, htail⟩ := h2
    rw [mergeEmit, IncKeys, List.pairwise_cons]
    refine ⟨?_, ih h1 htail⟩
    exact bound [] t2 p2.1 (by intro q hq; cases hq) hhead
  | case3 p1 t1 ih =>
    intro h1 h2
    rw [IncKeys, List.pairwise_cons] at h1
    obtain ⟨hhead, htail⟩ := h1
    rw [mergeEmit, IncKeys, List.pairwise_cons]
    refine ⟨?_, ih htail h2⟩
    exact bound t1 [] p1.1 hhead (by intro q hq; cases hq)
  | case4 p1 t1 p2 t2 heq ih =>
    intro h1 h2
    rw [IncKeys, List.pairwise_cons] at h1 h2
    obtain ⟨hhead1, htail1⟩ := h1
    obtain ⟨hhead2, htail2⟩ := h2
    rw [mergeEmit, if_pos heq, IncKeys, List.pairwise_cons]
    refine ⟨?_, ih htail1 htail2⟩
    exact bound t1 t2 p1.1 hhead1 (fun q hq => heq ▸ hhead2 q hq)
  | case5 p1 t1 p2 t2 hne hlt ih =>
    intro h1 h2
    have h2' := h2
    rw [IncKeys, List.pairwise_cons] at h1 h2
    obtain ⟨hhead1, htail1⟩ := h1
    obtain ⟨hhead2, _⟩ := h2
    rw [mergeEmit, if_neg hne, if_pos hlt, IncKeys, List.pairwise_cons]
    refine ⟨?_, ih htail1 h2'⟩
    refine bound t1 (p2 :: t2) p1.1 hhead1 ?_
    intro q hq
    rcases List.mem_cons.mp hq with hq | hq
    · rw [hq]; exact hlt
    · exact hlt.trans (hhead2 q hq)
  | case6 p1 t1 p2 t2 hne hnlt ih =>
    intro h1 h2
    have h1' := h1
    rw [IncKeys, List.pairwise_cons] at h1 h2
    obtain ⟨hhead1, _⟩ := h1
    obtain ⟨hhead2, htail2⟩ := h2
    have hgt : p2.1 < p1.1 := by omega
    rw [mergeEmit, if_neg hne, if_neg hnlt, IncKeys, List.pairwise_cons]
    refine ⟨?_, ih h1' htail2⟩
    refine bound (p1 :: t1) t2 p2.1 ?_ hhead2
    intro q hq
    rcases List.mem_cons.mp hq with hq | hq
    · rw [hq]; exact hgt
    · exact hgt.trans (hhead1 q hq)

/-- Looking the merge walk's output up at a key: every key of either input is
present, combined with the stored-or-default values; no other key appears. -/
theorem lookupW_mergeEmit (M : Int → W → W → W) (d1 d2 : W) :
    ∀ l1 l2 : List (Int × W), IncKeys l1 → IncKeys l2 → ∀ k : Int,
      lookupW (mergeEmit M d1 d2 l1 l2) k =
        if k ∈ l1.map Prod.fst ∨ k ∈ l2.map Prod.fst then
          some (M k (valueAt l1 d1 k) (valueAt l2 d2 k))
        else none := by
  intro l1 l2
  induction l1, l2 using mergeEmit.induct M d1 d2 with
  | case1 =>
    intro _ _ k
    rw [mergeEmit]
    simp [lookupW]
  | case2 p2 t2 ih =>
    intro h1 h2 k
    rw [IncKeys, List.pairwise_cons] at h2
    obtain ⟨hhead, htail⟩ := h2
    rw [mergeEmit]
    simp only [lookupW]
    by_cases hk : p2.1 = k
    · subst hk
      simp [valueAt_cons, valueAt_nil]
    · have hk' : ¬(k = p2.1) := fun hh => hk hh.symm
      rw [if_neg hk, ih h1 htail k, valueAt_cons, if_neg hk]
      exact if_congr (by simp [List.mem_cons, hk']) rfl rfl
  | case3 p1 t1 ih =>
    intro h1 h2 k
    rw [IncKeys, List.pairwise_cons] at h1
    obtain ⟨hhead, htail⟩ := h1
    rw [mergeEmit]
    simp only [lookupW]
    by_cases hk : p1.1 = k
    · subst hk
      simp [valueAt_cons, valueAt_nil]
    · have hk' : ¬(k = p1.1) := fun hh => hk hh.symm
      rw [if_neg hk, ih htail h2 k, valueAt_cons, if_neg hk]
      exact if_congr (by simp [List.mem_cons, hk']) rfl rfl
  | case4 p1 t1 p2 t2 heq ih =>
    intro h1 h2 k
    rw [IncKeys, List.pairwise_cons] at h1 h2
    obtain ⟨hhead1, htail1⟩ := h1
    obtain ⟨hhead2, htail2⟩ := h2
    rw [mergeEmit, if_pos heq]
    simp only [lookupW]
    by_cases hk : p1.1 = k
    · subst hk
      simp [valueAt_cons, heq.symm]
    · have hk2 : ¬(p2.1 = k) := heq ▸ hk
      have hk' : ¬(k = p1.1) := fun hh => hk hh.symm
      have hk2' : ¬(k = p2.1) := fun hh => hk2 hh.symm
      rw [if_neg hk, ih htail1 htail2 k, valueAt_cons, if_neg hk,
        valueAt_cons, if_neg hk2]
      exact if_congr (by simp [List.mem_cons, hk', hk2']) rfl rfl
  | case5 p1 t1 p2 t2 hne hlt ih =>
    intro h1 h2 k
    have h2' := h2
    rw [IncKeys, List.pairwise_cons] at h1 h2
    obtain ⟨hhead1, htail1⟩ := h1
    obtain ⟨hhead2, _⟩ := h2
    have hall2 : ∀ q ∈ p2 :: t2, p1.1 < q.1 := by
      intro q hq
      rcases List.mem_cons.mp hq with hq | hq
      · rw [hq]; exact hlt
      · exact hlt.trans (hhead2 q hq)
    rw [mergeEmit, if_neg hne, if_pos hlt]
    simp only [lookupW]
    by_cases hk : p1.1 = k
    · subst hk
      rw [valueAt_default_of_lt (p2 :: t2) d2 p1.1 hall2]
      simp [valueAt_cons]
    · have hk' : ¬(k = p1.1) := fun hh => hk hh.symm
      rw [if_neg hk, ih htail1 h2' k, valueAt_cons p1 t1 d1 k, if_neg hk]
      exact if_congr (by simp [List.mem_cons, hk']) rfl rfl
  | case6 p1 t1 p2 t2 hne hnlt ih =>
    intro h1 h2 k
    have h1' := h1
    rw [IncKeys, List.pairwise_cons] at h1 h2
    obtain ⟨hhead1, _⟩ := h1
    obtain ⟨hhead2, htail2⟩ := h2
    have hgt : p2.1 < p1.1 := by omega
    have hall1 : ∀ q ∈ p1 :: t1, p2.1 < q.1 := by
      intro q hq
      rcases List.mem_cons.mp hq with hq | hq
      · rw [hq]; exact hgt
      · exact hgt.trans (hhead1 q hq)
    rw [mergeEmit, if_neg hne, if_neg hnlt]
    simp only [lookupW]
    by_cases hk : p2.1 = k
    · subst hk
      rw [valueAt_default_of_lt (p1 :: t1) d1 p2.1 hall1]
      simp [valueAt_cons]
    · have hk' : ¬(k = p2.1) := fun hh => hk hh.symm
      rw [if_neg hk, ih h1' htail2 k, valueAt_cons p2 t2 d2 k, if_neg hk]
      exact if_congr (by simp [List.mem_cons, hk']) rfl rfl

/-- The registry state: the `register_table_` map, embedded as an association
list (reachable states keep keys unique, since insertion only happens on a
missing key). -/
structure GenericRegister (K E : Type) where
  register_table_ : List (K × E)
deriving DecidableEq

/-- `SetEntry(key, entry)`: `std::map::insert` — insert only when the key is
absent; an already-present key leaves the table unchanged. -/
def SetEntry {K E : Type} [DecidableEq K] (r : GenericRegister K E) (k : K)
    (e : E) : GenericRegister K E :=
  match lookupW r.register_table_ k with
  | some _ => r
  | none => { register_table_ := (k, e) :: r.register_table_ }

/-- `LookupEntry(key)`: find in the table, returning a hit or "not found". -/
def LookupEntry {K E : Type} [DecidableEq K] (r : GenericRegister K E)
    (k : K) : Option E :=
  lookupW r.register_table_ k

/-- The outcome of the `dlopen`-based fallback, which is outside this
component's control: either the load fails, or it succeeds and the loaded
module's static registration code has produced a post-load table. -/
inductive LoadOutcome (K E : Type) where
  | fail : LoadOutcome K E
  | success : List (K × E) → LoadOutcome K E

/-- `LoadEntryFromSharedObject(key)`: on load failure return a
value-initialized `EntryType()` (the `Inhabited` default); on success re-run
the lookup against the post-load table, again returning the value-initialized
entry on a miss.  Every path returns an entry; none raises. -/
def LoadEntryFromSharedObject {K E : Type} [DecidableEq K] [Inhabited E]
    (outcome : LoadOutcome K E) (k : K) : E :=
  match outcome with
  | .fail => default
  | .success post =>
    match lookupW post k with
    | some e => e
    | none => default

/-- `GetEntry(key)`: lookup, and on a miss fall back to loading. -/
def GetEntry {K E : Type} [DecidableEq K] [Inhabited E]
    (r : GenericRegister K E) (k : K) (outcome : LoadOutcome K E) : E :=
  match LookupEntry r k with
  | some e => e
  | none => LoadEntryFromSharedObject outcome k

theorem lookupW_SetEntry_hit {K E : Type} [DecidableEq K]
    (r : GenericRegister K E) (k : K) (e : E)
    (h : lookupW r.register_table_ k = none) :
    LookupEntry (SetEntry r k e) k = some e := by
  unfold SetEntry
  rw [h]
  unfold LookupEntry
  simp [lookupW]

/-- Claim C2: registry registration is first-wins — for a key not yet
registered, `SetEntry(k, e1)` followed by `SetEntry(k, e2)` leaves the
registry exactly as after the first call; the entry stored under `k` is still
`e1`, and `GetEntry`/`LookupEntry` return `e1`, never an overwrite and never
an error. -/
theorem c2_first_wins {K E : Type} [DecidableEq K] [Inhabited E]
    (r : GenericRegister K E) (k : K) (e1 e2 : E)
    (hfresh : LookupEntry r k = none) :
    SetEntry (SetEntry r k e1) k e2 = SetEntry r k e1 ∧
    LookupEntry (SetEntry (SetEntry r k e1) k e2) k = some e1 ∧
    ∀ outcome : LoadOutcome K E,
      GetEntry (SetEntry (SetEntry r k e1) k e2) k outcome = e1 := by
  have h1 : LookupEntry (SetEntry r k e1) k = some e1 :=
    lookupW_SetEntry_hit r k e1 hfresh
  have hstep : ∀ (s : GenericRegister K E) (v : E),
      lookupW s.register_table_ k = some v → SetEntry s k e2 = s := by
    intro s v hv
    unfold SetEntry
    rw [hv]
  have hno : SetEntry (SetEntry r k e1) k e2 = SetEntry r k e1 :=
    hstep (SetEntry r k e1) e1 h1
  refine ⟨hno, by rw [hno]; exact h1, ?_⟩
  intro outcome
  unfold GetEntry
  rw [hno, h1]

theorem c2_first_wins_witness :
    SetEntry (SetEntry (⟨[]⟩ : GenericRegister Nat Nat) 7 1) 7 2 =
      SetEntry (⟨[]⟩ : GenericRegister Nat Nat) 7 1 ∧
    LookupEntry (SetEntry (SetEntry (⟨[]⟩ : GenericRegister Nat Nat) 7 1) 7 2)
      7 = some 1 ∧
    GetEntry (SetEntry (SetEntry (⟨[]⟩ : GenericRegister Nat Nat) 7 1) 7 2) 7
      LoadOutcome.fail = 1 :=
  ⟨(c2_first_wins ⟨[]⟩ 7 1 2 (by decide)).1,
   (c2_first_wins ⟨[]⟩ 7 1 2 (by decide)).2.1,
   (c2_first_wins ⟨[]⟩ 7 1 2 (by decide)).2.2 LoadOutcome.fail⟩

/-- Claim C4: for a key with no registered entry, if the fallback module load
fails, or the post-load lookup still misses, `GetEntry` returns the
value-initialized (default-constructed) entry; the function is total and
returns an entry on every path, never an error signal. -/
theorem c4_getentry_default {K E : Type} [DecidableEq K] [Inhabited E]
    (r : GenericRegister K E) (k : K) (outcome : LoadOutcome K E)
    (hmiss : LookupEntry r k = none)
    (hload : outcome = LoadOutcome.fail ∨
      ∃ post, outcome = LoadOutcome.success post ∧ lookupW post k = none) :
    GetEntry r k outcome = (default : E) := by
  unfold GetEntry
  rw [hmiss]
  show LoadEntryFromSharedObject outcome k = default
  rcases hload with h | ⟨post, hpost, hmiss2⟩
  · rw [h]
    rfl
  · rw [hpost]
    simp [LoadEntryFromSharedObject, hmiss2]

theorem c4_getentry_default_witness :
    GetEntry (⟨[]⟩ : GenericRegister Nat Nat) 3 LoadOutcome.fail =
      (default : Nat) ∧
    GetEntry (⟨[]⟩ : GenericRegister Nat Nat) 3
      (LoadOutcome.success [(5, 9)]) = (default : Nat) :=
  ⟨c4_getentry_default ⟨[]⟩ 3 LoadOutcome.fail (by decide) (Or.inl rfl),
   c4_getentry_default ⟨[]⟩ 3 (LoadOutcome.success [(5, 9)]) (by decide)
     (Or.inr ⟨[(5, 9)], rfl, by decide⟩)⟩

/-- Claim C10: `SetEntry(k, e)` has no effect on other keys — the entry
associated with every key distinct from `k` is unchanged, and every
previously registered pair stays retrievable with its original entry. -/
theorem c10_setentry_frame {K E : Type} [DecidableEq K]
    (r : GenericRegister K E) (k : K) (e : E) (k' : K) :
    (k' ≠ k → LookupEntry (SetEntry r k e) k' = LookupEntry r k') ∧
    (∀ e', LookupEntry r k' = some e' →
      LookupEntry (SetEntry r k e) k' = some e') := by
  cases hl : lookupW r.register_table_ k with
  | some v =>
    have hr : SetEntry r k e = r := by
      unfold SetEntry
      rw [hl]
    rw [hr]
    exact ⟨fun _ => rfl, fun e' h => h⟩
  | none =>
    have hs : SetEntry r k e =
        { register_table_ := (k, e) :: r.register_table_ } := by
      unfold SetEntry
      rw [hl]
    rw [hs]
    constructor
    · intro hne
      unfold LookupEntry
      simp only [lookupW]
      rw [if_neg (fun hh => hne hh.symm)]
    · intro e' h
      have hne : k' ≠ k := by
        intro hh
        rw [hh] at h
        unfold LookupEntry at h
        rw [hl] at h
        cases h
      unfold LookupEntry
      simp only [lookupW]
      rw [if_neg (fun hh => hne hh.symm)]
      exact h

theorem c10_setentry_frame_witness :
    LookupEntry (SetEntry (⟨[(1, 10)]⟩ : GenericRegister Nat Nat) 2 20) 1 =
      LookupEntry (⟨[(1, 10)]⟩ : GenericRegister Nat Nat) 1 ∧
    LookupEntry (SetEntry (⟨[(1, 10)]⟩ : GenericRegister Nat Nat) 2 20) 1 =
      some 10 :=
  ⟨(c10_setentry_frame ⟨[(1, 10)]⟩ 2 20 1).1 (by decide),
   (c10_setentry_frame ⟨[(1, 10)]⟩ 2 20 1).2 10 (by decide)⟩

/-- Claim C9: self-assignment is the identity — the assignment operator
detects the aliasing case (`this == &w`, the `aliased` flag) before
re-initializing, so `w = w` leaves the weight unchanged and returns it. -/
theorem c9_self_assign (w : SparseTupleWeight W) :
    operatorAssign w w true = w := rfl

/-- Claim C7: for a sequence of pushes with strictly increasing keys and
values different from the current default, `Size()` equals the number of
pushes; and a push (with the default-value check on) of a value equal to the
current default is a no-op, so it never increases `Size()`. -/
theorem c7_push_size (d : W) (l : List (Int × W))
    (hs : IncKeys l)
    (hk : ∀ p ∈ l, p.1 ≠ kNoKey)
    (hv : ∀ p ∈ l, p.2 ≠ d) :
    Size (l.foldl (fun a q => Push a q true) (Init d)) = l.length ∧
    ∀ (w : SparseTupleWeight W) (key : Int),
      Push w (key, w.default_) true = w := by
  constructor
  · rw [Size_eq_length_toList,
      foldl_Push_toList l (Init d) (GoodState_Init d) hk, toList_Init,
      List.nil_append, show (Init d).default_ = d from rfl,
      List.filter_eq_self.mpr (by intro p hp; simpa using hv p hp)]
  · intro w key
    unfold Push
    rw [if_pos ⟨rfl, rfl⟩]

theorem c7_push_size_witness :
    Size ([((1 : Int), (5 : Int)), (3, 7)].foldl
      (fun a q => Push a q true) (Init (0 : Int))) = 2 ∧
    Push (Init (0 : Int)) ((4 : Int), (0 : Int)) true = Init (0 : Int) :=
  ⟨(c7_push_size 0 [(1, 5), (3, 7)] (by decide) (by decide) (by decide)).1,
   (c7_push_size 0 [(1, 5), (3, 7)] (by decide) (by decide) (by decide)).2
     (Init 0) 4⟩

/-- Claim C8 counterexample: the claim "for every sparse tuple weight w,
hash(w) == hash(copy_of(w))" fails on a weight holding a forced component
whose value equals the default — the copy constructor pushes with the
default-value check on, eliding that component, so the copy's hash differs. -/
theorem c8_counterexample :
    Hash (fun k => k.toNat) (fun v : Int => v.toNat)
        (Push (Init (0 : Int)) (1, 0) false) ≠
      Hash (fun k => k.toNat) (fun v : Int => v.toNat)
        (copyOf (Push (Init (0 : Int)) (1, 0) false)) := by decide

/-- Claim C8 (amended): for every weight none of whose stored component values
equals its default — every weight built without forced pushes — the copy
hashes identically to the original, where hash is the order-dependent rolling
fold `h = 5*h + hash(key); h = 13*h + value.hash()` over stored components,
the default not participating. -/
theorem c8_hash_copy_amended (Hk : Int → Nat) (Hw : W → Nat)
    (w : SparseTupleWeight W)
    (hk : ∀ p ∈ toList w, p.1 ≠ kNoKey)
    (hv : ∀ p ∈ toList w, p.2 ≠ w.default_) :
    Hash Hk Hw (copyOf w) = Hash Hk Hw w := by
  have ht : toList (copyOf w) = toList w := by
    unfold copyOf
    rw [foldl_Push_toList (toList w) (Init w.default_) (GoodState_Init _) hk,
      toList_Init, List.nil_append,
      show (Init w.default_).default_ = w.default_ from rfl]
    exact List.filter_eq_self.mpr (by intro p hp; simpa using hv p hp)
  unfold Hash
  rw [ht]

theorem c8_hash_copy_amended_witness :
    Hash (fun k => k.toNat) (fun v : Int => v.toNat)
        (copyOf (Push (Init (0 : Int)) (2, 5) true)) =
      Hash (fun k => k.toNat) (fun v : Int => v.toNat)
        (Push (Init (0 : Int)) (2, 5) true) :=
  c8_hash_copy_amended (fun k => k.toNat) (fun v : Int => v.toNat)
    (Push (Init (0 : Int)) (2, 5) true) (by decide) (by decide)

/-- Claim C3 counterexample: the claim "quantize(delta) returns a weight whose
default value equals w's default value unchanged" fails — `Quantize` builds
its result from a freshly default-constructed weight, so the result's default
is the scalar zero, not the source's default. -/
theorem c3_counterexample :
    (Quantize (0 : Int) (fun v => v) (Init (5 : Int))).default_ ≠
      (Init (5 : Int)).default_ := by decide

/-- Claim C3 (amended): `Quantize` returns a weight whose default is the
freshly constructed weight's default — the scalar zero — rather than w's
default, and whose stored components are the quantizations of w's stored
components, except that components whose quantized value equals that zero are
elided by the push's default-value check. -/
theorem c3_quantize_amended (zero : W) (q : W → W) (w : SparseTupleWeight W)
    (hk : ∀ p ∈ toList w, p.1 ≠ kNoKey) :
    (Quantize zero q w).default_ = zero ∧
    toList (Quantize zero q w) =
      ((toList w).map (fun p => (p.1, q p.2))).filter
        (fun p => p.2 ≠ zero) := by
  have hmap : (toList w).foldl (fun a p => Push a (p.1, q p.2) true)
      (Init zero) =
      ((toList w).map (fun p => (p.1, q p.2))).foldl
        (fun a p => Push a p true) (Init zero) :=
    (List.foldl_map (fun p : Int × W => (p.1, q p.2))
      (fun a p => Push a p true) (toList w) (Init zero)).symm
  have hmk : ∀ p ∈ (toList w).map (fun p => (p.1, q p.2)), p.1 ≠ kNoKey := by
    intro p hp
    obtain ⟨p0, hp0, rfl⟩ := List.mem_map.mp hp
    exact hk p0 hp0
  constructor
  · unfold Quantize
    rw [hmap, foldl_Push_default_]
    rfl
  · unfold Quantize
    rw [hmap, foldl_Push_toList _ _ (GoodState_Init _) hmk, toList_Init,
      List.nil_append, show (Init zero).default_ = zero from rfl]

theorem c3_quantize_amended_witness :
    (Quantize (0 : Int) (fun v => v + 1)
      (Push (Init (0 : Int)) (2, 5) true)).default_ = 0 ∧
    toList (Quantize (0 : Int) (fun v => v + 1)
      (Push (Init (0 : Int)) (2, 5) true)) = [(2, 6)] := by
  have h := c3_quantize_amended (0 : Int) (fun v => v + 1)
    (Push (Init (0 : Int)) (2, 5) true) (by decide)
  exact ⟨h.1, by rw [h.2]; decide⟩

/-- Claim C1 counterexample: the claim that reading pushes each pair without
default-elision, reproducing the exact on-wire component list even when a
stored component's value equals the default, fails — `operator>>` pushes with
the default-value check left on, so a stored component equal to the default
is dropped on read and a re-write produces a different wire list. -/
theorem c1_counterexample :
    writeSTW (readSTW (writeSTW (Push (Init (0 : Int)) (1, 0) false))) ≠
      writeSTW (Push (Init (0 : Int)) (1, 0) false) := by decide

/-- Claim C1 (amended): the round trip reads back the written weight with
default-elision applied, so the reconstructed component list is the on-wire
list with components whose value equals the default removed (hence exact
whenever no stored component equals the default), and the result equals the
original under the weight equality predicate. -/
theorem c1_roundtrip_amended (w : SparseTupleWeight W)
    (hs : IncKeys (toList w)) (hk : ∀ p ∈ toList w, p.1 ≠ kNoKey) :
    stwEq (readSTW (writeSTW w)) w = true ∧
    toList (readSTW (writeSTW w)) =
      (toList w).filter (fun p => p.2 ≠ w.default_) := by
  have hread : readSTW (writeSTW w) =
      (toList w).foldl (fun a q => Push a q true) (Init w.default_) := rfl
  have htl : toList (readSTW (writeSTW w)) =
      (toList w).filter (fun p => p.2 ≠ w.default_) := by
    rw [hread, foldl_Push_toList _ _ (GoodState_Init _) hk, toList_Init,
      List.nil_append, show (Init w.default_).default_ = w.default_ from rfl]
  have hdef : (readSTW (writeSTW w)).default_ = w.default_ := by
    rw [hread, foldl_Push_default_]
    rfl
  refine ⟨?_, htl⟩
  rw [stwEq_iff _ _ ?_ hs]
  · refine ⟨hdef, ?_⟩
    intro k
    rw [htl, hdef]
    exact valueAt_filter (toList w) w.default_ k hs
  · rw [htl]
    exact List.Pairwise.sublist (List.filter_sublist _) hs

theorem c1_roundtrip_amended_witness :
    stwEq (readSTW (writeSTW (Push (Init (0 : Int)) (2, 5) true)))
      (Push (Init (0 : Int)) (2, 5) true) = true ∧
    toList (readSTW (writeSTW (Push (Init (0 : Int)) (2, 5) true))) =
      [(2, 5)] := by
  have h := c1_roundtrip_amended (Push (Init (0 : Int)) (2, 5) true)
    (by decide) (by decide)
  exact ⟨h.1, by rw [h.2]; decide⟩

/-- Claim C6: the equality of `operator==` — defaults equal, then the
synchronized ascending walk comparing aligned pairs and comparing a key
missing on one side against that side's default — is reflexive, symmetric,
and transitive on weights satisfying the strictly-increasing-key invariant. -/
theorem c6_equality_equivalence (w1 w2 w3 : SparseTupleWeight W)
    (h1 : IncKeys (toList w1)) (h2 : IncKeys (toList w2))
    (h3 : IncKeys (toList w3)) :
    stwEq w1 w1 = true ∧
    stwEq w1 w2 = stwEq w2 w1 ∧
    (stwEq w1 w2 = true → stwEq w2 w3 = true → stwEq w1 w3 = true) := by
  refine ⟨?_, ?_, ?_⟩
  · exact (stwEq_iff w1 w1 h1 h1).mpr ⟨rfl, fun k => rfl⟩
  · have hiff : stwEq w1 w2 = true ↔ stwEq w2 w1 = true := by
      rw [stwEq_iff w1 w2 h1 h2, stwEq_iff w2 w1 h2 h1]
      constructor
      · rintro ⟨hd, hp⟩
        exact ⟨hd.symm, fun k => (hp k).symm⟩
      · rintro ⟨hd, hp⟩
        exact ⟨hd.symm, fun k => (hp k).symm⟩
    cases ha : stwEq w1 w2 <;> cases hb : stwEq w2 w1
    · rfl
    · exact ha ▸ hiff.mpr hb
    · exact (hb ▸ hiff.mp ha).symm
    · rfl
  · intro ha hb
    rw [stwEq_iff w1 w2 h1 h2] at ha
    rw [stwEq_iff w2 w3 h2 h3] at hb
    rw [stwEq_iff w1 w3 h1 h3]
    exact ⟨ha.1.trans hb.1, fun k => (ha.2 k).trans (hb.2 k)⟩

theorem c6_equality_equivalence_witness :
    stwEq (Push (Init (0 : Int)) (2, 0) false)
      (Push (Init (0 : Int)) (2, 0) false) = true ∧
    stwEq (Push (Init (0 : Int)) (2, 0) false) (Init (0 : Int)) =
      stwEq (Init (0 : Int)) (Push (Init (0 : Int)) (2, 0) false) ∧
    stwEq (Push (Init (0 : Int)) (2, 0) false)
      (Push (Init (0 : Int)) (2, 0) false) = true := by
  have h := c6_equality_equivalence (Push (Init (0 : Int)) (2, 0) false)
    (Init (0 : Int)) (Push (Init (0 : Int)) (2, 0) false)
    (by decide) (by decide) (by decide)
  refine ⟨h.1, h.2.1, h.2.2 ?_ ?_⟩
  · simp [stwEq, eqWalk, toList, Push, Init, kNoKey]
  · simp [stwEq, eqWalk, toList, Push, Init, kNoKey]

/-- Claim C5 counterexample: the claim that the combined weight's default
equals the operator applied at the reserved sentinel key (`kNoKey` = -1)
fails — `SparseTupleWeightMap` applies the operator at the literal key 0,
which a key-sensitive operator distinguishes. -/
theorem c5_counterexample :
    (SparseTupleWeightMap (fun k v1 v2 => k + v1 + v2) (Init (0 : Int))
        (Init (0 : Int)) (Init (0 : Int))).default_ ≠
      (fun k v1 v2 => k + v1 + v2) kNoKey (Init (0 : Int)).default_
        (Init (0 : Int)).default_ := by
  norm_num [SparseTupleWeightMap, mergeWalk, toList, Init, SetDefaultValue,
    kNoKey]

/-- Claim C5 (amended): for inputs satisfying the increasing-key invariant,
`SparseTupleWeightMap` produces a weight whose default is the operator
applied at the literal key 0 (not the reserved sentinel) to the two defaults,
and which, at every key appearing in either input, holds the operator applied
to the stored-or-default values of the two inputs (components equal to the
result's default being elided on push, hence still denoting that value). -/
theorem c5_map_amended (M : Int → W → W → W) (d0 : W)
    (w1 w2 : SparseTupleWeight W)
    (h1 : IncKeys (toList w1)) (h2 : IncKeys (toList w2))
    (n1 : ∀ p ∈ toList w1, p.1 ≠ kNoKey)
    (n2 : ∀ p ∈ toList w2, p.1 ≠ kNoKey) :
    (SparseTupleWeightMap M (Init d0) w1 w2).default_ =
      M 0 w1.default_ w2.default_ ∧
    ∀ k : Int,
      (k ∈ (toList w1).map Prod.fst ∨ k ∈ (toList w2).map Prod.fst) →
      valueAt (toList (SparseTupleWeightMap M (Init d0) w1 w2))
          (SparseTupleWeightMap M (Init d0) w1 w2).default_ k =
        M k (valueAt (toList w1) w1.default_ k)
          (valueAt (toList w2) w2.default_ k) := by
  have hwalk : SparseTupleWeightMap M (Init d0) w1 w2 =
      (mergeEmit M w1.default_ w2.default_ (toList w1) (toList w2)).foldl
        (fun a q => Push a q true)
        (SetDefaultValue (Init d0) (M 0 w1.default_ w2.default_)) := by
    unfold SparseTupleWeightMap
    exact mergeWalk_eq_foldl M _ _ (toList w1) (toList w2) _
  have hgood : GoodState
      (SetDefaultValue (Init d0) (M 0 w1.default_ w2.default_)) :=
    fun _ => rfl
  have hkeys : ∀ p ∈ mergeEmit M w1.default_ w2.default_ (toList w1)
      (toList w2), p.1 ≠ kNoKey := by
    intro p hp
    rcases mergeEmit_keys_sub M _ _ _ _ p hp with h | h
    · rcases List.mem_map.mp h with ⟨q, hq, hqp⟩
      rw [← hqp]
      exact n1 q hq
    · rcases List.mem_map.mp h with ⟨q, hq, hqp⟩
      rw [← hqp]
      exact n2 q hq
  have hdef : (SparseTupleWeightMap M (Init d0) w1 w2).default_ =
      M 0 w1.default_ w2.default_ := by
    rw [hwalk, foldl_Push_default_]
    rfl
  have htl : toList (SparseTupleWeightMap M (Init d0) w1 w2) =
      (mergeEmit M w1.default_ w2.default_ (toList w1) (toList w2)).filter
        (fun p => p.2 ≠ M 0 w1.default_ w2.default_) := by
    rw [hwalk, foldl_Push_toList _ _ hgood hkeys,
      show toList (SetDefaultValue (Init d0)
        (M 0 w1.default_ w2.default_)) = [] from toList_Init d0 ▸ rfl,
      List.nil_append]
    rfl
  refine ⟨hdef, ?_⟩
  intro k hmem
  rw [htl, hdef,
    valueAt_filter _ _ k (IncKeys_mergeEmit M _ _ _ _ h1 h2)]
  unfold valueAt
  rw [lookupW_mergeEmit M _ _ _ _ h1 h2 k, if_pos hmem]
  rfl

theorem c5_map_amended_witness :
    (SparseTupleWeightMap (fun _ v1 v2 => v1 + v2) (Init (0 : Int))
        (Push (Init (0 : Int)) (2, 5) true)
        (Push (Push (Init (0 : Int)) (2, 3) true) (4, 1) true)).default_ =
      0 ∧
    toList (SparseTupleWeightMap (fun _ v1 v2 => v1 + v2) (Init (0 : Int))
        (Push (Init (0 : Int)) (2, 5) true)
        (Push (Push (Init (0 : Int)) (2, 3) true) (4, 1) true)) =
      [(2, 8), (4, 1)] ∧
    valueAt (toList (SparseTupleWeightMap (fun _ v1 v2 => v1 + v2)
        (Init (0 : Int)) (Push (Init (0 : Int)) (2, 5) true)
        (Push (Push (Init (0 : Int)) (2, 3) true) (4, 1) true)))
      (SparseTupleWeightMap (fun _ v1 v2 => v1 + v2) (Init (0 : Int))
        (Push (Init (0 : Int)) (2, 5) true)
        (Push (Push (Init (0 : Int)) (2, 3) true) (4, 1) true)).default_
      4 = 1 := by
  have h := c5_map_amended (fun _ v1 v2 => v1 + v2) (0 : Int)
    (Push (Init (0 : Int)) (2, 5) true)
    (Push (Push (Init (0 : Int)) (2, 3) true) (4, 1) true)
    (by decide) (by decide) (by decide) (by decide)
  refine ⟨by rw [h.1]; decide, ?_, ?_⟩
  · norm_num [SparseTupleWeightMap, mergeWalk, SetDefaultValue, toList,
      Init, kNoKey, Push]
  · have h4 := h.2 4 (by decide)
    rw [h4]
    decide

end FstSpec
